import Mathlib

/-!
Verification of the HTML renderer in `src/html.rs` (a pulldown-cmark
backend modified for GTK).  The renderer consumes a finite sequence of
markdown events and appends HTML to an output buffer.  Strings are
modelled as `List Char`; byte offsets of the autolink layer become
character offsets (all inputs of interest are ASCII).  The external
collaborators (`Event`/`Tag` from the parser, `escape_html` and
`escape_href` from the escape module, and the linkify URL finder) are
not part of the given sources; they are modelled from the spec, and the
URL finder is a parameter of the renderer.
-/

set_option autoImplicit false

namespace Render

/-- Strings as lists of characters. -/
abbrev Str := List Char

/-- Coercion from string literals. -/
def str (s : String) : Str := s.toList

/-- Modelled from the spec: the `Tag` payload variants.  `Header`,
`CodeBlock`, `Emphasis`, `Strong`, `Code` and `Link` are the variants
the renderer handles; the spec says there are "others the renderer may
ignore", modelled here by the remaining constructors. -/
inductive Tag where
  | Header (level : Nat)
  | CodeBlock (info : Str)
  | Emphasis
  | Strong
  | Code
  | Link (dest : Str) (title : Str)
  | Paragraph
  | Rule
  | BlockQuote
  | List (start : Option Nat)
  | Item
  | FootnoteDefinition (name : Str)
  | Image (dest : Str) (title : Str)
deriving DecidableEq, Repr

/-- Modelled from the spec: the event-stream alphabet produced by the
external parser. -/
inductive Event where
  | Start (tag : Tag)
  | End (tag : Tag)
  | Text (s : Str)
  | Html (s : Str)
  | InlineHtml (s : Str)
  | SoftBreak
  | HardBreak
  | FootnoteReference (name : Str)
deriving DecidableEq, Repr

/-- Modelled from the spec: per-character action of `escape_html`:
`&` to `&amp;`, `<` to `&lt;`, `>` to `&gt;`, and, only when
`escape_quotes` is true, `"` to `&quot;`; all else unchanged. -/
def escapeHtmlChar (escape_quotes : Bool) (c : Char) : Str :=
  if c = '&' then str "&amp;"
  else if c = '<' then str "&lt;"
  else if c = '>' then str "&gt;"
  else if escape_quotes && c = '"' then str "&quot;"
  else [c]

/-- Modelled from the spec: `escape_html(dst, text, escape_quotes)`
appends the escaped text to `dst`; modelled as returning the escaped
text, appended by the caller. -/
def escape_html (text : Str) (escape_quotes : Bool) : Str :=
  (text.map (escapeHtmlChar escape_quotes)).flatten

/-- Modelled from the spec: per-character action of `escape_href`,
which escapes characters unsafe in an HTML attribute value (at minimum
`&`, `<`, `>`, `"`) and passes other characters through. -/
def escapeHrefChar (c : Char) : Str :=
  if c = '&' then str "&amp;"
  else if c = '<' then str "%3C"
  else if c = '>' then str "%3E"
  else if c = '"' then str "%22"
  else [c]

/-- Modelled from the spec: `escape_href(dst, url)` appends the
escaped URL to `dst`; modelled as returning the escaped URL. -/
def escape_href (url : Str) : Str :=
  (url.map escapeHrefChar).flatten

/-- Modelled from the spec: the linkify URL finder, a pure function
from a text to the (start, end) ranges of its URL-kind matches. -/
abbrev Finder := Str → List (Nat × Nat)

/-- A finder that reports no URL matches anywhere (used to instantiate
concrete examples whose text fragments contain no URL). -/
def noUrls : Finder := fun _ => []

/-- `Ctx::fresh_line`: push a newline unless the buffer is empty or
already ends in one (html.rs lines 39-43). -/
def fresh_line (buf : Str) : Str :=
  if !(buf.isEmpty || buf.getLast? == some '\n') then buf ++ ['\n'] else buf

/-- Rust `String::insert_str` at a character index. -/
def insertStr (s : Str) (i : Nat) (t : Str) : Str :=
  s.take i ++ t ++ s.drop i

/-- The `<a href="...">` open tag built for an autolink match
(html.rs lines 60-63). -/
def anchorOpen (url : Str) : Str :=
  str "<a href=\"" ++ escape_href url ++ str "\">"

/-- The `</a>` close tag. -/
def closeAnchor : Str := str "</a>"

/-- The autolink insertion loop of the `Text` arm (html.rs lines
59-69): matches were computed on a clone `orig` of the escaped text;
for each match the close tag is inserted at `appended + end`, the open
tag at `appended + start`, and `appended` grows by the total length
inserted. -/
def autolinkLoop (orig : Str) : List (Nat × Nat) → Str → Nat → Str
  | [], escaped, _ => escaped
  | (s, e) :: rest, escaped, appended =>
    let astring := anchorOpen ((orig.drop s).take (e - s))
    let escaped1 := insertStr escaped (appended + e) closeAnchor
    let escaped2 := insertStr escaped1 (appended + s) astring
    autolinkLoop orig rest escaped2 (appended + astring.length + 4)

/-- The full `Text` arm (html.rs lines 51-71): escape the text, then
run the autolink loop over the finder's matches on the escaped text. -/
def renderText (find : Finder) (text : Str) : Str :=
  let escaped := escape_html text false
  autolinkLoop escaped (find escaped) escaped 0

/-- Lookup in the footnote-number table (models `HashMap` queried per
key; the table is an association list in first-insertion order). -/
def lookupNum (t : List (Str × Nat)) (k : Str) : Option Nat :=
  match t with
  | [] => none
  | (k2, v) :: rest => if k2 = k then some v else lookupNum rest k

/-- Decimal rendering of a footnote number (`format!`). -/
def natDigits (n : Nat) : Str := (Nat.repr n).toList

/-- Renderer state: the output buffer plus the footnote-number table
local to one `run` call (html.rs line 46). -/
structure Ctx where
  buf : Str
  numbers : List (Str × Nat)
deriving DecidableEq, Repr

/-- `Ctx::start_tag` (html.rs lines 89-113); the numbers argument of
the source is unused there and omitted. -/
def start_tag (buf : Str) (tag : Tag) : Str :=
  match tag with
  | .Header _ => fresh_line buf ++ str "<big>"
  | .CodeBlock _ => fresh_line buf ++ str "<tt>"
  | .Emphasis => buf ++ str "<i>"
  | .Strong => buf ++ str "<b>"
  | .Code => buf ++ str "<tt>"
  | .Link dest title =>
    let b1 := buf ++ str "<a href=\"" ++ escape_href dest
    let b2 := if !title.isEmpty then b1 ++ str "\" title=\"" ++ escape_html title false else b1
    b2 ++ str "\">"
  | _ => buf

/-- `Ctx::end_tag` (html.rs lines 115-125). -/
def end_tag (buf : Str) (tag : Tag) : Str :=
  match tag with
  | .Header _ => buf ++ str "</big>"
  | .CodeBlock _ => buf ++ str "</tt>\n"
  | .Emphasis => buf ++ str "</i>"
  | .Strong => buf ++ str "</b>"
  | .Code => buf ++ str "</tt>"
  | .Link _ _ => buf ++ str "</a>"
  | _ => buf

/-- The `FootnoteReference` arm (html.rs lines 76-84): `len` is the
table size plus one, the name is HTML-escaped into the anchor target,
and `entry(name).or_insert(len)` either reuses the assigned number or
inserts `len`. -/
def footnoteRef (st : Ctx) (name : Str) : Ctx :=
  let len := st.numbers.length + 1
  let b := st.buf ++ str "<sup class=\"footnote-reference\"><a href=\"#"
             ++ escape_html name false ++ str "\">"
  match lookupNum st.numbers name with
  | some number => ⟨b ++ natDigits number ++ str "</a></sup>", st.numbers⟩
  | none => ⟨b ++ natDigits len ++ str "</a></sup>", st.numbers ++ [(name, len)]⟩

/-- One iteration of the event dispatch loop of `Ctx::run`
(html.rs lines 47-85). -/
def step (find : Finder) (st : Ctx) (event : Event) : Ctx :=
  match event with
  | .Start tag => ⟨start_tag st.buf tag, st.numbers⟩
  | .End tag => ⟨end_tag st.buf tag, st.numbers⟩
  | .Text text => ⟨st.buf ++ renderText find text, st.numbers⟩
  | .Html html => ⟨st.buf ++ html, st.numbers⟩
  | .InlineHtml html => ⟨st.buf ++ html, st.numbers⟩
  | .SoftBreak => ⟨st.buf ++ ['\n'], st.numbers⟩
  | .HardBreak => ⟨st.buf ++ str "<br />\n", st.numbers⟩
  | .FootnoteReference name => footnoteRef st name

/-- `Ctx::run` (html.rs lines 45-87): pull events one at a time until
the iterator is exhausted. -/
def run (find : Finder) (st : Ctx) : List Event → Ctx
  | [] => st
  | e :: evs => run find (step find st e) evs

/-- `push_html` (html.rs lines 155-161): render the event sequence
into the caller-supplied buffer, with a fresh footnote table. -/
def push_html (find : Finder) (buf : Str) (events : List Event) : Str :=
  (run find ⟨buf, []⟩ events).buf

/-- A character the HTML escaper rewrites when quotes are not escaped. -/
def isHtmlSpecial (c : Char) : Bool := c == '&' || c == '<' || c == '>'

/-- Validity of a list of finder matches against a text of length
`len`, starting no earlier than `lo`: matches are in ascending order,
non-overlapping, and within bounds. -/
def matchesValid : Nat → Nat → List (Nat × Nat) → Bool
  | _, _, [] => true
  | lo, len, (s, e) :: rest =>
    decide (lo ≤ s) && decide (s ≤ e) && decide (e ≤ len) && matchesValid e len rest

/-- Follows the spec words for the autolink layer: each match of the
escaped text, taken in order, is wrapped in an anchor around its own
original characters, the text between matches left unchanged.  `base`
is the position of `s` inside the original fragment. -/
def specWrapMatches (base : Nat) (s : Str) : List (Nat × Nat) → Str
  | [] => s
  | (a, b) :: rest =>
    let url := (s.drop (a - base)).take (b - a)
    s.take (a - base) ++ anchorOpen url ++ url ++ closeAnchor
      ++ specWrapMatches b (s.drop (b - base)) rest

/-- The markup emitted for one footnote reference with a given number. -/
def footnoteFragment (name : Str) (number : Nat) : Str :=
  str "<sup class=\"footnote-reference\"><a href=\"#" ++ escape_html name false
    ++ str "\">" ++ natDigits number ++ str "</a></sup>"

/-- Record a referenced footnote name: already-seen names are kept,
new names are appended (first-appearance order). -/
def addName (seen : List Str) (n : Str) : List Str :=
  if n ∈ seen then seen else seen ++ [n]

/-- Index of the first occurrence of a name in a list. -/
def idxOf : List Str → Str → Nat
  | [], _ => 0
  | m :: rest, n => if m = n then 0 else idxOf rest n + 1

/-- Follows the spec words for footnote numbering: the 1-based rank of
a name in the first-appearance order of distinct names. -/
def specFootnoteNumber (seen : List Str) (n : Str) : Nat :=
  idxOf (addName seen n) n + 1

/-- Follows the spec words: the output of a pure footnote-reference
stream, each name numbered by first appearance. -/
def specFootnotes (seen : List Str) : List Str → Str
  | [] => []
  | n :: rest => footnoteFragment n (specFootnoteNumber seen n)
      ++ specFootnotes (addName seen n) rest

/-- The footnote table holding the names of `seen` in order, numbered
consecutively from `k`. -/
def mkTable : List Str → Nat → List (Str × Nat)
  | [], _ => []
  | n :: rest, k => (n, k) :: mkTable rest (k + 1)

/-- Whether a buffer contains two consecutive newline characters. -/
def hasDoubleNewline : Str → Bool
  | [] => false
  | [_] => false
  | a :: b :: rest => (a == '\n' && b == '\n') || hasDoubleNewline (b :: rest)

/-- The tag variants `start_tag` and `end_tag` recognize; all others
fall into the catch-all arm. -/
def handledTag : Tag → Bool
  | .Header _ => true
  | .CodeBlock _ => true
  | .Emphasis => true
  | .Strong => true
  | .Code => true
  | .Link _ _ => true
  | _ => false

/-- A concrete finder reporting the single URL of the autolink example
from the spec. -/
def exFinder : Finder := fun s =>
  if s = str "see http://example.com now" then [(4, 22)] else []

theorem insertStr_at_length (A B t : Str) :
    insertStr (A ++ B) A.length t = A ++ t ++ B := by
  simp [insertStr, List.take_left, List.drop_left, List.append_assoc]

theorem insertStr_at_append (front tail t : Str) (k : Nat) (hk : k ≤ tail.length) :
    insertStr (front ++ tail) (front.length + k) t
      = front ++ (tail.take k ++ t ++ tail.drop k) := by
  have h1 : front ++ tail = (front ++ tail.take k) ++ tail.drop k := by
    rw [List.append_assoc, List.take_append_drop]
  have h2 : front.length + k = (front ++ tail.take k).length := by
    simp [List.length_take, Nat.min_eq_left hk]
  rw [h1, h2, insertStr_at_length]
  simp [List.append_assoc]

theorem escape_html_cons (q : Bool) (c : Char) (cs : Str) :
    escape_html (c :: cs) q = escapeHtmlChar q c ++ escape_html cs q := rfl

theorem escapeHtmlChar_plain (c : Char) (h : isHtmlSpecial c = false) :
    escapeHtmlChar false c = [c] := by
  simp only [isHtmlSpecial, Bool.or_eq_false_iff, beq_eq_false_iff_ne, ne_eq] at h
  simp [escapeHtmlChar, h.1.1, h.1.2, h.2]

theorem escape_html_plain (text : Str)
    (h : text.all (fun c => !isHtmlSpecial c) = true) :
    escape_html text false = text := by
  induction text with
  | nil => rfl
  | cons c cs ih =>
    simp only [List.all_cons, Bool.and_eq_true, Bool.not_eq_eq_eq_not, Bool.not_true] at h
    rw [escape_html_cons, escapeHtmlChar_plain c h.1, ih (by simpa using h.2)]
    rfl

theorem autolinkLoop_wraps (orig : Str) (ms : List (Nat × Nat)) :
    ∀ (front : Str) (c appended : Nat),
    front.length = appended + c →
    matchesValid c orig.length ms = true →
    autolinkLoop orig ms (front ++ orig.drop c) appended
      = front ++ specWrapMatches c (orig.drop c) ms := by
  induction ms with
  | nil =>
    intro front c appended hf hv
    rfl
  | cons m rest ih =>
    obtain ⟨s, e⟩ := m
    intro front c appended hf hv
    simp only [matchesValid, Bool.and_eq_true, decide_eq_true_eq] at hv
    obtain ⟨⟨⟨hcs, hse⟩, helen⟩, hvrest⟩ := hv
    have hce : c ≤ e := le_trans hcs hse
    have hsl : s ≤ orig.length := le_trans hse helen
    have hkse : e - c ≤ (orig.drop c).length := by
      rw [List.length_drop]; omega
    have hksc : s - c ≤ (orig.drop c).length := by
      rw [List.length_drop]; omega
    have hdrop_s : (orig.drop c).drop (s - c) = orig.drop s := by
      rw [List.drop_drop]; congr 1; omega
    have hdrop_e : (orig.drop c).drop (e - c) = orig.drop e := by
      rw [List.drop_drop]; congr 1; omega
    have hurl : ((orig.drop c).drop (s - c)).take (e - s)
        = (orig.drop s).take (e - s) := by rw [hdrop_s]
    set url := (orig.drop s).take (e - s) with hurl_def
    have hurl_len : url.length = e - s := by
      rw [hurl_def, List.length_take, List.length_drop]; omega
    set astring := anchorOpen url with hastring
    -- first insertion: the close tag at appended + e
    have he1 : appended + e = front.length + (e - c) := by omega
    have step1 : insertStr (front ++ orig.drop c) (appended + e) closeAnchor
        = front ++ ((orig.drop c).take (e - c) ++ closeAnchor ++ orig.drop e) := by
      rw [he1, insertStr_at_append front (orig.drop c) closeAnchor (e - c) hkse, hdrop_e]
    -- split the kept part of the original at the match start
    have hsplit : (orig.drop c).take (e - c)
        = (orig.drop c).take (s - c) ++ url := by
      have : e - c = (s - c) + (e - s) := by omega
      rw [this, List.take_add, hdrop_s]
    have hlen_front2 : (front ++ (orig.drop c).take (s - c)).length = appended + s := by
      simp only [List.length_append, List.length_take]
      rw [Nat.min_eq_left hksc]
      omega
    have step2 : insertStr (front ++ ((orig.drop c).take (e - c) ++ closeAnchor ++ orig.drop e))
          (appended + s) astring
        = (front ++ (orig.drop c).take (s - c) ++ astring ++ url ++ closeAnchor)
            ++ orig.drop e := by
      rw [hsplit, ← hlen_front2]
      have hre : front ++ ((orig.drop c).take (s - c) ++ url ++ closeAnchor ++ orig.drop e)
          = (front ++ (orig.drop c).take (s - c))
            ++ (url ++ closeAnchor ++ orig.drop e) := by
        simp [List.append_assoc]
      calc insertStr (front ++ ((orig.drop c).take (s - c) ++ url ++ closeAnchor ++ orig.drop e))
              (front ++ (orig.drop c).take (s - c)).length astring
          = insertStr ((front ++ (orig.drop c).take (s - c))
              ++ (url ++ closeAnchor ++ orig.drop e))
              (front ++ (orig.drop c).take (s - c)).length astring := by rw [hre]
        _ = (front ++ (orig.drop c).take (s - c)) ++ astring
              ++ (url ++ closeAnchor ++ orig.drop e) := insertStr_at_length _ _ _
        _ = (front ++ (orig.drop c).take (s - c) ++ astring ++ url ++ closeAnchor)
              ++ orig.drop e := by simp [List.append_assoc]
    have hfront2 : (front ++ (orig.drop c).take (s - c) ++ astring ++ url
        ++ closeAnchor).length = appended + astring.length + 4 + e := by
      simp only [List.length_append, List.length_take]
      rw [Nat.min_eq_left hksc]
      have h4 : closeAnchor.length = 4 := rfl
      omega
    -- unfold one loop iteration and apply the induction hypothesis
    show autolinkLoop orig rest
        (insertStr (insertStr (front ++ orig.drop c) (appended + e) closeAnchor)
          (appended + s) astring)
        (appended + astring.length + 4)
      = front ++ specWrapMatches c (orig.drop c) ((s, e) :: rest)
    rw [step1]
    have hassoc : front ++ ((orig.drop c).take (e - c) ++ closeAnchor ++ orig.drop e)
        = front ++ ((orig.drop c).take (e - c) ++ closeAnchor ++ orig.drop e) := rfl
    rw [step2]
    have := ih (front ++ (orig.drop c).take (s - c) ++ astring ++ url ++ closeAnchor)
      e (appended + astring.length + 4) hfront2 hvrest
    rw [this]
    show front ++ (orig.drop c).take (s - c) ++ astring ++ url ++ closeAnchor
        ++ specWrapMatches e (orig.drop e) rest
      = front ++ specWrapMatches c (orig.drop c) ((s, e) :: rest)
    simp only [specWrapMatches, hurl, hdrop_e]
    simp [List.append_assoc, hastring]

/-- C1: the renderer first HTML-escapes each Text event, then wraps
every URL match found in the escaped text in an anchor around its own
original characters, each successive insertion offset adjusted by the
cumulative markup length already inserted in the fragment; for a text
with exactly one URL match and no HTML-special characters the output
is exactly one `<a href="URL">` open tag immediately before the match,
`</a>` immediately after, with the surrounding text unchanged. -/
theorem text_autolink_wraps_each_match (find : Finder) (text : Str)
    (hvalid : matchesValid 0 (escape_html text false).length
        (find (escape_html text false)) = true) :
    renderText find text
      = specWrapMatches 0 (escape_html text false) (find (escape_html text false))
    ∧ ∀ pre url post,
        text.all (fun c => !isHtmlSpecial c) = true →
        text = pre ++ url ++ post →
        find text = [(pre.length, pre.length + url.length)] →
        renderText find text
          = pre ++ anchorOpen url ++ url ++ closeAnchor ++ post := by
  have hmain : renderText find text
      = specWrapMatches 0 (escape_html text false) (find (escape_html text false)) := by
    have := autolinkLoop_wraps (escape_html text false)
      (find (escape_html text false)) [] 0 0 rfl (by simpa using hvalid)
    simpa [renderText] using this
  refine ⟨hmain, ?_⟩
  intro pre url post hplain htext hfind
  have hesc : escape_html text false = text := escape_html_plain text hplain
  rw [hmain, hesc, hfind]
  have hdrop_pre : text.drop pre.length = url ++ post := by
    rw [htext, List.append_assoc, List.drop_left]
  have htake_pre : text.take pre.length = pre := by
    rw [htext, List.append_assoc, List.take_left]
  have hdrop_all : text.drop (pre.length + url.length) = post := by
    rw [htext, ← List.length_append pre url, List.drop_left]
  simp only [specWrapMatches, Nat.sub_zero, Nat.add_sub_cancel_left,
    hdrop_pre, htake_pre, hdrop_all, List.take_left]

/-- Witness for C1 at the concrete autolink example of the spec. -/
theorem text_autolink_wraps_each_match_witness :
    renderText exFinder (str "see http://example.com now")
      = str "see " ++ anchorOpen (str "http://example.com")
        ++ str "http://example.com" ++ closeAnchor ++ str " now" :=
  (text_autolink_wraps_each_match exFinder (str "see http://example.com now")
      (by decide)).2
    (str "see ") (str "http://example.com") (str " now")
    (by decide) (by decide) (by decide)

theorem mkTable_length (seen : List Str) (k : Nat) :
    (mkTable seen k).length = seen.length := by
  induction seen generalizing k with
  | nil => rfl
  | cons n rest ih => simp [mkTable, ih]

theorem lookupNum_mkTable (seen : List Str) (k : Nat) (n : Str) :
    lookupNum (mkTable seen k) n
      = if n ∈ seen then some (idxOf seen n + k) else none := by
  induction seen generalizing k with
  | nil => simp [mkTable, lookupNum]
  | cons m rest ih =>
    by_cases h : m = n
    · subst h
      simp [mkTable, lookupNum, idxOf]
    · rw [mkTable, lookupNum, if_neg h, ih (k + 1)]
      by_cases hmem : n ∈ rest
      · rw [if_pos hmem, if_pos (List.mem_cons_of_mem m hmem), idxOf, if_neg h]
        congr 1
        omega
      · rw [if_neg hmem, if_neg]
        intro hc
        rcases List.mem_cons.mp hc with hc | hc
        · exact h hc.symm
        · exact hmem hc

theorem mkTable_append (seen : List Str) (n : Str) (k : Nat) :
    mkTable (seen ++ [n]) k = mkTable seen k ++ [(n, seen.length + k)] := by
  induction seen generalizing k with
  | nil => simp [mkTable]
  | cons m rest ih =>
    have harith : rest.length + (k + 1) = (m :: rest).length + k := by
      simp only [List.length_cons]
      omega
    calc mkTable ((m :: rest) ++ [n]) k
        = (m, k) :: mkTable (rest ++ [n]) (k + 1) := rfl
      _ = (m, k) :: (mkTable rest (k + 1) ++ [(n, rest.length + (k + 1))]) := by
            rw [ih]
      _ = ((m, k) :: mkTable rest (k + 1)) ++ [(n, (m :: rest).length + k)] := by
            rw [harith]
            rfl
      _ = mkTable (m :: rest) k ++ [(n, (m :: rest).length + k)] := rfl

theorem idxOf_append_self (seen : List Str) (n : Str) (h : n ∉ seen) :
    idxOf (seen ++ [n]) n = seen.length := by
  induction seen with
  | nil => simp [idxOf]
  | cons m rest ih =>
    have hmn : m ≠ n := fun hc => h (hc ▸ List.mem_cons_self m rest)
    have hrest : n ∉ rest := fun hc => h (List.mem_cons_of_mem m hc)
    show idxOf (m :: (rest ++ [n])) n = rest.length + 1
    rw [idxOf, if_neg hmn, ih hrest]

theorem footnoteRef_eq (st : Ctx) (name : Str) :
    footnoteRef st name =
      match lookupNum st.numbers name with
      | some k => ⟨st.buf ++ footnoteFragment name k, st.numbers⟩
      | none => ⟨st.buf ++ footnoteFragment name (st.numbers.length + 1),
                 st.numbers ++ [(name, st.numbers.length + 1)]⟩ := by
  cases h : lookupNum st.numbers name <;>
    simp [footnoteRef, footnoteFragment, h, List.append_assoc]

theorem run_footnotes (find : Finder) (names : List Str) :
    ∀ (buf : Str) (seen : List Str),
    run find ⟨buf, mkTable seen 1⟩ (names.map Event.FootnoteReference)
      = ⟨buf ++ specFootnotes seen names,
         mkTable (names.foldl addName seen) 1⟩ := by
  induction names with
  | nil =>
    intro buf seen
    simp [run, specFootnotes]
  | cons n rest ih =>
    intro buf seen
    simp only [List.map_cons, run, step, List.foldl_cons]
    rw [footnoteRef_eq]
    by_cases h : n ∈ seen
    · rw [lookupNum_mkTable, if_pos h]
      have haddn : addName seen n = seen := by simp [addName, h]
      show run find ⟨buf ++ footnoteFragment n (idxOf seen n + 1), mkTable seen 1⟩
          (rest.map Event.FootnoteReference)
        = ⟨buf ++ specFootnotes seen (n :: rest), mkTable ((n :: rest).foldl addName seen) 1⟩
      rw [ih]
      simp [specFootnotes, specFootnoteNumber, haddn, List.append_assoc]
    · rw [lookupNum_mkTable, if_neg h]
      have haddn : addName seen n = seen ++ [n] := by simp [addName, h]
      have hnum : specFootnoteNumber seen n = seen.length + 1 := by
        rw [specFootnoteNumber, haddn, idxOf_append_self seen n h]
      show run find ⟨buf ++ footnoteFragment n ((mkTable seen 1).length + 1),
            mkTable seen 1 ++ [(n, (mkTable seen 1).length + 1)]⟩
          (rest.map Event.FootnoteReference)
        = ⟨buf ++ specFootnotes seen (n :: rest), mkTable ((n :: rest).foldl addName seen) 1⟩
      rw [mkTable_length, ← mkTable_append, ih]
      simp [specFootnotes, hnum, haddn, List.append_assoc]

/-- C2: footnote numbering is deterministic in order of first
appearance: the output of any footnote-reference stream is the
concatenation of `<sup class="footnote-reference"><a
href="#ESCAPED_NAME">NUMBER</a></sup>` fragments where a name's first
reference is numbered by the count of distinct names seen so far
(1-based) and every later reference reuses that number; in particular
names a, b, a give numbers 1, 2, 1 with the same anchor target both
times for a. -/
theorem footnote_numbering_first_appearance :
    (∀ (find : Finder) (names : List Str),
        push_html find [] (names.map Event.FootnoteReference)
          = specFootnotes [] names)
    ∧ (∀ (seen : List Str) (n : Str), n ∉ seen →
        specFootnoteNumber seen n = seen.length + 1)
    ∧ (∀ (seen : List Str) (n : Str), n ∈ seen →
        specFootnoteNumber seen n = idxOf seen n + 1)
    ∧ push_html noUrls []
        [Event.FootnoteReference (str "a"), Event.FootnoteReference (str "b"),
         Event.FootnoteReference (str "a")]
      = footnoteFragment (str "a") 1 ++ footnoteFragment (str "b") 2
        ++ footnoteFragment (str "a") 1 := by
  have hmain : ∀ (find : Finder) (names : List Str),
      push_html find [] (names.map Event.FootnoteReference)
        = specFootnotes [] names := by
    intro find names
    show (run find ⟨[], mkTable [] 1⟩ (names.map Event.FootnoteReference)).buf
      = specFootnotes [] names
    rw [run_footnotes]
    simp
  refine ⟨hmain, ?_, ?_, ?_⟩
  · intro seen n h
    rw [specFootnoteNumber, addName, if_neg h, idxOf_append_self seen n h]
  · intro seen n h
    rw [specFootnoteNumber, addName, if_pos h]
  · rw [show [Event.FootnoteReference (str "a"), Event.FootnoteReference (str "b"),
          Event.FootnoteReference (str "a")]
        = ([str "a", str "b", str "a"].map Event.FootnoteReference) from rfl,
      hmain noUrls [str "a", str "b", str "a"]]
    have e1 : specFootnoteNumber [] (str "a") = 1 := by decide
    have e2 : specFootnoteNumber (addName [] (str "a")) (str "b") = 2 := by decide
    have e3 : specFootnoteNumber (addName (addName [] (str "a")) (str "b")) (str "a") = 1 := by
      decide
    simp [specFootnotes, e1, e2, e3, List.append_assoc]

theorem hasDoubleNewline_append_newline (buf : Str)
    (h : buf.getLast? ≠ some '\n') :
    hasDoubleNewline (buf ++ ['\n']) = hasDoubleNewline buf := by
  induction buf with
  | nil => rfl
  | cons a t ih =>
    cases t with
    | nil =>
      have ha : a ≠ '\n' := by
        intro hc
        exact h (by simp [hc])
      show hasDoubleNewline [a, '\n'] = hasDoubleNewline [a]
      simp [hasDoubleNewline, ha]
    | cons b t2 =>
      have h2 : (b :: t2).getLast? ≠ some '\n' := by
        rwa [List.getLast?_cons_cons] at h
      show hasDoubleNewline (a :: b :: (t2 ++ ['\n'])) = hasDoubleNewline (a :: b :: t2)
      simp only [hasDoubleNewline]
      rw [show b :: (t2 ++ ['\n']) = (b :: t2) ++ ['\n'] from rfl, ih h2]

theorem fresh_line_of_needs (buf : Str) (h1 : buf ≠ []) (h2 : buf.getLast? ≠ some '\n') :
    fresh_line buf = buf ++ ['\n'] := by
  simp [fresh_line, h1, h2]

theorem fresh_line_noop (buf : Str) (h : buf = [] ∨ buf.getLast? = some '\n') :
    fresh_line buf = buf := by
  rcases h with h | h
  · subst h
    rfl
  · simp [fresh_line, h]

theorem fresh_line_no_double (buf : Str) (h : hasDoubleNewline buf = false) :
    hasDoubleNewline (fresh_line buf) = false := by
  by_cases h1 : buf = []
  · subst h1
    exact h
  · by_cases h2 : buf.getLast? = some '\n'
    · rw [fresh_line_noop buf (Or.inr h2)]
      exact h
    · rw [fresh_line_of_needs buf h1 h2, hasDoubleNewline_append_newline buf h2]
      exact h

/-- C3: `fresh_line` appends a newline if and only if the buffer is
non-empty and does not already end in a newline, so it never creates
two consecutive newlines; `Text("x")` followed by `Start(Header(1))`
yields exactly one newline between `x` and `<big>`, and
`Start(Header(1))` as the very first event yields no leading newline. -/
theorem fresh_line_newline_discipline :
    (∀ buf : Str, buf ≠ [] → buf.getLast? ≠ some '\n' →
        fresh_line buf = buf ++ ['\n'])
    ∧ (∀ buf : Str, buf = [] ∨ buf.getLast? = some '\n' → fresh_line buf = buf)
    ∧ (∀ buf : Str, hasDoubleNewline buf = false →
        hasDoubleNewline (fresh_line buf) = false)
    ∧ push_html noUrls [] [Event.Text (str "x"), Event.Start (Tag.Header 1)]
        = str "x" ++ ['\n'] ++ str "<big>"
    ∧ push_html noUrls [] [Event.Start (Tag.Header 1)] = str "<big>" :=
  ⟨fresh_line_of_needs, fresh_line_noop, fresh_line_no_double, by decide, by decide⟩

/-- Witness for C3: a buffer ending mid-line gets exactly one newline. -/
theorem fresh_line_newline_discipline_witness :
    fresh_line (str "x") = str "x" ++ ['\n'] :=
  fresh_line_newline_discipline.1 (str "x") (by decide) (by decide)

/-- Witness for C2: a never-seen name gets number seen-count + 1. -/
theorem footnote_numbering_first_appearance_witness :
    specFootnoteNumber [str "a", str "b"] (str "c") = 3 :=
  footnote_numbering_first_appearance.2.1 [str "a", str "b"] (str "c") (by decide)

/-- C4: the renderer only ever HTML-escapes with `escape_quotes =
false` (Text content, footnote names, link titles): ampersand,
less-than and greater-than become entities while double quotes pass
through unchanged; `Text("<b>")` renders as the literal `&lt;b&gt;`. -/
theorem escaping_never_escapes_quotes :
    (∀ c : Char, isHtmlSpecial c = false → escape_html [c] false = [c])
    ∧ escape_html (str "&<>\"") false = str "&amp;&lt;&gt;\""
    ∧ push_html noUrls [] [Event.Text (str "<b>")] = str "&lt;b&gt;"
    ∧ push_html noUrls [] [Event.FootnoteReference (str "x\"y")]
        = str "<sup class=\"footnote-reference\"><a href=\"#x\"y\">1</a></sup>"
    ∧ push_html noUrls [] [Event.Start (Tag.Link (str "u") (str "t\"t"))]
        = str "<a href=\"u\" title=\"t\"t\">" := by
  refine ⟨?_, by decide, by decide, by decide, by decide⟩
  intro c h
  rw [show escape_html [c] false = escapeHtmlChar false c ++ [] from rfl,
    escapeHtmlChar_plain c h, List.append_nil]

/-- Witness for C4: a quote character passes through unescaped. -/
theorem escaping_never_escapes_quotes_witness :
    escape_html [Char.ofNat 34] false = [Char.ofNat 34] :=
  escaping_never_escapes_quotes.1 (Char.ofNat 34) (by decide)

/-- C5: `Start(Link(dest, title))` appends `<a href="`, the
URL-escaped destination, then only for a non-empty title `" title="`
and the HTML-escaped title, then `">`; `End(Link(..))` appends
`</a>`; with an empty title the attribute is omitted, as in the two
concrete streams of the spec. -/
theorem link_tag_rendering (buf dest title : Str) :
    start_tag buf (Tag.Link dest title)
      = buf ++ str "<a href=\"" ++ escape_href dest
        ++ (if title.isEmpty then []
            else str "\" title=\"" ++ escape_html title false)
        ++ str "\">"
    ∧ end_tag buf (Tag.Link dest title) = buf ++ str "</a>"
    ∧ push_html noUrls []
        [Event.Start (Tag.Link (str "http://x.test") []),
         Event.Text (str "click"), Event.End (Tag.Link (str "http://x.test") [])]
      = str "<a href=\"http://x.test\">click</a>"
    ∧ push_html noUrls []
        [Event.Start (Tag.Link (str "http://x.test") (str "My Title"))]
      = str "<a href=\"http://x.test\" title=\"My Title\">" := by
  refine ⟨?_, rfl, by decide, by decide⟩
  by_cases h : title.isEmpty <;>
    simp [start_tag, h, List.append_assoc]

/-- C6: in the default dispatch, `Html(s)` and `InlineHtml(s)` append
`s` verbatim and unescaped, `SoftBreak` appends exactly one newline,
and `HardBreak` appends exactly `<br />` followed by a newline; the
footnote table is untouched. -/
theorem raw_html_and_breaks (find : Finder) (st : Ctx) (s : Str) :
    step find st (Event.Html s) = ⟨st.buf ++ s, st.numbers⟩
    ∧ step find st (Event.InlineHtml s) = ⟨st.buf ++ s, st.numbers⟩
    ∧ step find st Event.SoftBreak = ⟨st.buf ++ ['\n'], st.numbers⟩
    ∧ step find st Event.HardBreak = ⟨st.buf ++ str "<br />" ++ ['\n'], st.numbers⟩ := by
  refine ⟨rfl, rfl, rfl, ?_⟩
  show Ctx.mk (st.buf ++ str "<br />\n") st.numbers = ⟨st.buf ++ str "<br />" ++ ['\n'], st.numbers⟩
  rw [List.append_assoc]
  rfl

/-- C7: for every tag other than Header, CodeBlock, Emphasis, Strong,
Code and Link, both the Start and the End event are complete no-ops:
the renderer state (buffer and footnote table) is returned unchanged
and no error is possible. -/
theorem unhandled_tags_noop (find : Finder) (st : Ctx) (tag : Tag)
    (h : handledTag tag = false) :
    step find st (Event.Start tag) = st ∧ step find st (Event.End tag) = st := by
  cases tag <;> simp_all [handledTag, step, start_tag, end_tag]

/-- Witness for C7 at the Paragraph tag. -/
theorem unhandled_tags_noop_witness :
    step noUrls ⟨[], []⟩ (Event.Start Tag.Paragraph) = (⟨[], []⟩ : Ctx)
    ∧ step noUrls ⟨[], []⟩ (Event.End Tag.Paragraph) = (⟨[], []⟩ : Ctx) :=
  unhandled_tags_noop noUrls ⟨[], []⟩ Tag.Paragraph (by decide)

theorem run_append (find : Finder) (evs1 evs2 : List Event) :
    ∀ st, run find st (evs1 ++ evs2) = run find (run find st evs1) evs2 := by
  induction evs1 with
  | nil => intro st; rfl
  | cons e rest ih =>
    intro st
    show run find (step find st e) (rest ++ evs2)
      = run find (run find (step find st e) rest) evs2
    exact ih (step find st e)

/-- C8: the renderer is a total function over every finite event
sequence: `run` is defined by structural recursion on the input list,
consumes each event exactly once in order (splitting the input splits
the run), consumes the empty stream by returning the state unchanged,
and `push_html` always produces a string with no error value. -/
theorem run_total_and_sequential (find : Finder) (st : Ctx)
    (e : Event) (evs1 evs2 : List Event) :
    run find st (evs1 ++ evs2) = run find (run find st evs1) evs2
    ∧ run find st (e :: evs1) = run find (step find st e) evs1
    ∧ run find st [] = st
    ∧ push_html find st.buf evs1 = (run find ⟨st.buf, []⟩ evs1).buf :=
  ⟨run_append find evs1 evs2 st, rfl, rfl, rfl⟩

theorem fresh_line_appends (buf : Str) : ∃ t, fresh_line buf = buf ++ t := by
  unfold fresh_line
  split
  · exact ⟨['\n'], rfl⟩
  · exact ⟨[], by simp⟩

theorem start_tag_appends (buf : Str) (tag : Tag) :
    ∃ t, start_tag buf tag = buf ++ t := by
  cases tag with
  | Header _ =>
    obtain ⟨t, ht⟩ := fresh_line_appends buf
    exact ⟨t ++ str "<big>", by rw [start_tag, ht, List.append_assoc]⟩
  | CodeBlock _ =>
    obtain ⟨t, ht⟩ := fresh_line_appends buf
    exact ⟨t ++ str "<tt>", by rw [start_tag, ht, List.append_assoc]⟩
  | Link dest title =>
    by_cases h : title.isEmpty
    · exact ⟨str "<a href=\"" ++ escape_href dest ++ str "\">",
        by simp [start_tag, h, List.append_assoc]⟩
    · exact ⟨str "<a href=\"" ++ escape_href dest ++ str "\" title=\""
          ++ escape_html title false ++ str "\">",
        by simp [start_tag, h, List.append_assoc]⟩
  | Emphasis => exact ⟨str "<i>", rfl⟩
  | Strong => exact ⟨str "<b>", rfl⟩
  | Code => exact ⟨str "<tt>", rfl⟩
  | Paragraph => exact ⟨[], (List.append_nil buf).symm⟩
  | Rule => exact ⟨[], (List.append_nil buf).symm⟩
  | BlockQuote => exact ⟨[], (List.append_nil buf).symm⟩
  | List _ => exact ⟨[], (List.append_nil buf).symm⟩
  | Item => exact ⟨[], (List.append_nil buf).symm⟩
  | FootnoteDefinition _ => exact ⟨[], (List.append_nil buf).symm⟩
  | Image _ _ => exact ⟨[], (List.append_nil buf).symm⟩

theorem end_tag_appends (buf : Str) (tag : Tag) :
    ∃ t, end_tag buf tag = buf ++ t := by
  cases tag with
  | Header _ => exact ⟨str "</big>", rfl⟩
  | CodeBlock _ => exact ⟨str "</tt>\n", rfl⟩
  | Emphasis => exact ⟨str "</i>", rfl⟩
  | Strong => exact ⟨str "</b>", rfl⟩
  | Code => exact ⟨str "</tt>", rfl⟩
  | Link _ _ => exact ⟨str "</a>", rfl⟩
  | Paragraph => exact ⟨[], (List.append_nil buf).symm⟩
  | Rule => exact ⟨[], (List.append_nil buf).symm⟩
  | BlockQuote => exact ⟨[], (List.append_nil buf).symm⟩
  | List _ => exact ⟨[], (List.append_nil buf).symm⟩
  | Item => exact ⟨[], (List.append_nil buf).symm⟩
  | FootnoteDefinition _ => exact ⟨[], (List.append_nil buf).symm⟩
  | Image _ _ => exact ⟨[], (List.append_nil buf).symm⟩

theorem step_appends (find : Finder) (st : Ctx) (e : Event) :
    ∃ t, (step find st e).buf = st.buf ++ t := by
  cases e with
  | Start tag => exact start_tag_appends st.buf tag
  | End tag => exact end_tag_appends st.buf tag
  | Text s => exact ⟨renderText find s, rfl⟩
  | Html s => exact ⟨s, rfl⟩
  | InlineHtml s => exact ⟨s, rfl⟩
  | SoftBreak => exact ⟨['\n'], rfl⟩
  | HardBreak => exact ⟨str "<br />\n", rfl⟩
  | FootnoteReference name =>
    have h := footnoteRef_eq st name
    cases hl : lookupNum st.numbers name with
    | some k =>
      refine ⟨footnoteFragment name k, ?_⟩
      show (footnoteRef st name).buf = st.buf ++ footnoteFragment name k
      rw [h, hl]
    | none =>
      refine ⟨footnoteFragment name (st.numbers.length + 1), ?_⟩
      show (footnoteRef st name).buf
        = st.buf ++ footnoteFragment name (st.numbers.length + 1)
      rw [h, hl]

theorem run_appends (find : Finder) (evs : List Event) :
    ∀ st : Ctx, ∃ t, (run find st evs).buf = st.buf ++ t := by
  induction evs with
  | nil => intro st; exact ⟨[], by simp [run]⟩
  | cons e rest ih =>
    intro st
    obtain ⟨t1, h1⟩ := step_appends find st e
    obtain ⟨t2, h2⟩ := ih (step find st e)
    exact ⟨t1 ++ t2, by rw [run, h2, h1, List.append_assoc]⟩

/-- C9: `push_html` only ever appends to the caller-supplied buffer:
the initial contents are a prefix of the final buffer for every event
sequence, and the empty event sequence leaves the buffer exactly
unchanged. -/
theorem push_html_only_appends (find : Finder) (buf : Str) (evs : List Event) :
    (∃ t, push_html find buf evs = buf ++ t)
    ∧ push_html find buf [] = buf :=
  ⟨run_appends find evs ⟨buf, []⟩, rfl⟩

theorem lookupNum_append_single (t : List (Str × Nat)) (n : Str) (v : Nat) (k : Str) :
    lookupNum (t ++ [(n, v)]) k
      = match lookupNum t k with
        | some w => some w
        | none => if n = k then some v else none := by
  induction t with
  | nil => rfl
  | cons p rest ih =>
    obtain ⟨k2, w⟩ := p
    by_cases h : k2 = k
    · simp [lookupNum, h]
    · show lookupNum ((k2, w) :: (rest ++ [(n, v)])) k = _
      rw [lookupNum, if_neg h, ih]
      rw [show lookupNum ((k2, w) :: rest) k = lookupNum rest k from by
        rw [lookupNum, if_neg h]]

theorem step_table_ext (find : Finder) (e : Event) (buf : Str)
    (t1 t2 : List (Str × Nat))
    (hlen : t1.length = t2.length)
    (hlook : ∀ k, lookupNum t1 k = lookupNum t2 k) :
    (step find ⟨buf, t1⟩ e).buf = (step find ⟨buf, t2⟩ e).buf
    ∧ (step find ⟨buf, t1⟩ e).numbers.length = (step find ⟨buf, t2⟩ e).numbers.length
    ∧ ∀ k, lookupNum (step find ⟨buf, t1⟩ e).numbers k
        = lookupNum (step find ⟨buf, t2⟩ e).numbers k := by
  cases e with
  | FootnoteReference name =>
    rw [step, step, footnoteRef_eq, footnoteRef_eq]
    show _ ∧ _
    rw [show lookupNum (Ctx.mk buf t1).numbers name = lookupNum t1 name from rfl,
      show lookupNum (Ctx.mk buf t2).numbers name = lookupNum t2 name from rfl,
      hlook name]
    cases lookupNum t2 name with
    | some w => exact ⟨rfl, hlen, hlook⟩
    | none =>
      refine ⟨by rw [show (Ctx.mk buf t1).numbers = t1 from rfl,
          show (Ctx.mk buf t2).numbers = t2 from rfl, hlen], ?_, ?_⟩
      · show (t1 ++ [(name, t1.length + 1)]).length = (t2 ++ [(name, t2.length + 1)]).length
        simp [hlen]
      · intro k
        show lookupNum (t1 ++ [(name, t1.length + 1)]) k
          = lookupNum (t2 ++ [(name, t2.length + 1)]) k
        rw [lookupNum_append_single, lookupNum_append_single, hlook k, hlen]
  | Start tag => exact ⟨rfl, hlen, hlook⟩
  | End tag => exact ⟨rfl, hlen, hlook⟩
  | Text s => exact ⟨rfl, hlen, hlook⟩
  | Html s => exact ⟨rfl, hlen, hlook⟩
  | InlineHtml s => exact ⟨rfl, hlen, hlook⟩
  | SoftBreak => exact ⟨rfl, hlen, hlook⟩
  | HardBreak => exact ⟨rfl, hlen, hlook⟩

theorem run_table_ext (find : Finder) (evs : List Event) :
    ∀ (buf : Str) (t1 t2 : List (Str × Nat)),
    t1.length = t2.length →
    (∀ k, lookupNum t1 k = lookupNum t2 k) →
    (run find ⟨buf, t1⟩ evs).buf = (run find ⟨buf, t2⟩ evs).buf := by
  induction evs with
  | nil => intro buf t1 t2 _ _; rfl
  | cons e rest ih =>
    intro buf t1 t2 hlen hlook
    obtain ⟨hb, hl, hk⟩ := step_table_ext find e buf t1 t2 hlen hlook
    show (run find (step find ⟨buf, t1⟩ e) rest).buf
      = (run find (step find ⟨buf, t2⟩ e) rest).buf
    calc (run find (step find ⟨buf, t1⟩ e) rest).buf
        = (run find ⟨(step find ⟨buf, t1⟩ e).buf,
            (step find ⟨buf, t1⟩ e).numbers⟩ rest).buf := rfl
      _ = (run find ⟨(step find ⟨buf, t2⟩ e).buf,
            (step find ⟨buf, t2⟩ e).numbers⟩ rest).buf := by
            rw [hb]
            exact ih _ _ _ hl hk
      _ = (run find (step find ⟨buf, t2⟩ e) rest).buf := rfl

/-- C10: rendering is deterministic: equal initial buffers and equal
event sequences give equal final buffers, and the footnote table is
only observed through per-key lookup and its size, never iterated, so
runs from observationally equal tables produce the same output. -/
theorem rendering_deterministic (find : Finder) (buf1 buf2 : Str)
    (evs1 evs2 : List Event) (t1 t2 : List (Str × Nat))
    (hbuf : buf1 = buf2) (hevs : evs1 = evs2)
    (hlen : t1.length = t2.length)
    (hlook : ∀ k, lookupNum t1 k = lookupNum t2 k) :
    push_html find buf1 evs1 = push_html find buf2 evs2
    ∧ (run find ⟨buf1, t1⟩ evs1).buf = (run find ⟨buf2, t2⟩ evs2).buf := by
  subst hbuf
  subst hevs
  exact ⟨rfl, run_table_ext find evs1 buf1 t1 t2 hlen hlook⟩

/-- Witness for C10: two distinct table representations with the same
length and per-key lookups drive the render to the same output. -/
theorem rendering_deterministic_witness :
    push_html noUrls (str "p") [Event.FootnoteReference (str "a")]
      = push_html noUrls (str "p") [Event.FootnoteReference (str "a")]
    ∧ (run noUrls ⟨str "p", [(str "a", 1), (str "a", 2)]⟩
        [Event.FootnoteReference (str "a")]).buf
      = (run noUrls ⟨str "p", [(str "a", 1), (str "a", 3)]⟩
        [Event.FootnoteReference (str "a")]).buf :=
  rendering_deterministic noUrls (str "p") (str "p")
    [Event.FootnoteReference (str "a")] [Event.FootnoteReference (str "a")]
    [(str "a", 1), (str "a", 2)] [(str "a", 1), (str "a", 3)]
    rfl rfl rfl
    (by
      intro k
      by_cases h : str "a" = k <;> simp [lookupNum, h])

end Render
